import Mathlib

/-!
Verification of the promise-enhancements combinators.

Shallow embedding of the sequencing / retry / first-success combinators of
`src/enhancement.js` (the variant whose `Promise.sync` takes a `seedValue`,
whose `Promise.retry` passes the remaining-attempt count to the callable, and
whose `Promise.prototype.sync` callback receives `(elem, i, last)`).

Modelling conventions:
* A settled asynchronous outcome is `Except ε α` (`.ok` = resolution,
  `.error` = rejection); `await` of a rejected value propagates the error.
* The JS value `undefined` that appears when reading `ret[idx-1]` out of
  bounds, or an omitted `seedValue` argument, is `Option.none`; a present
  value is `Option.some`.
* Side effects that the claims talk about (which callables were invoked and
  with what, how many timer waits of which length elapsed, which errors were
  collected) are made observable by threading explicit traces through the
  embedding; JS in-place mutation of `options` / `_collectedErrors` is
  modelled by threading the mutated state through the recursion.
* Host primitives (`Promise.all`, `Promise.resolve`, `Promise.reject`, the
  event loop) are modelled by their standard semantics; settlement time is
  an explicit `Nat` timestamp on already-started tasks.
-/

set_option autoImplicit false

universe u v w

/-- One element of the task collection handed to `Promise.sync`: either a
callable (invoked with the previous result — `undefined`/`none` when there is
none — and the current index), or an awaitable (a plain value or an
already-started promise, both of which the source merely `await`s). -/
inductive TaskSource (ε : Type u) (α : Type v) : Type (max u v) where
  | callable (f : Option α → Int → Except ε α)
  | awaited (t : Except ε α)

/-- Result of running the sequencer: the settled outcome together with the
trace of indices at which a callable was invoked, in invocation order. -/
structure SyncRun (ε : Type u) (α : Type v) : Type (max u v) where
  result : Except ε (List α)
  invoked : List Int

/-- JS array indexing `l[i]` with an `Int` index: out-of-bounds (including
negative) reads yield `undefined`, i.e. `none`. -/
def jsIndex {α : Type u} (l : List α) (i : Int) : Option α :=
  if i < 0 then none else l.get? i.toNat

/-- One iteration of the `for (let task of tasks)` body of `Promise.sync`
(src/enhancement.js lines 205-213), given the accumulator `ret` built so far:
`idx = ret.length`; a callable is invoked as
`idx < 0 ? task(seedValue, idx) : task(ret[idx-1], idx)`, an awaitable is
awaited directly.  Also returns the invocation trace of this step. -/
def runTask {ε : Type u} {α : Type v} (task : TaskSource ε α) (seedValue : Option α)
    (ret : List α) : Except ε α × List Int :=
  match task with
  | .callable f =>
    ((if (ret.length : Int) < 0 then f seedValue ret.length
      else f (jsIndex ret ((ret.length : Int) - 1)) ret.length),
     [(ret.length : Int)])
  | .awaited t => (t, [])

/-- The loop of `Promise.sync`: `ret` is the JS `ret` array, `inv` the
invocation trace accumulated so far.  A rejected step aborts the loop and the
whole call settles with that rejection (the partial `ret` is dropped). -/
def syncGo {ε : Type u} {α : Type v} (seedValue : Option α) :
    List (TaskSource ε α) → List α → List Int → SyncRun ε α
  | [], ret, inv => ⟨.ok ret, inv⟩
  | task :: rest, ret, inv =>
    match runTask task seedValue ret with
    | (.error e, tr) => ⟨.error e, inv ++ tr⟩
    | (.ok value, tr) => syncGo seedValue rest (ret ++ [value]) (inv ++ tr)

namespace Promise

/-- Model of `Promise.sync(tasks, seedValue)` (src/enhancement.js lines 203-215). -/
def sync {ε : Type u} {α : Type v} (tasks : List (TaskSource ε α))
    (seedValue : Option α) : SyncRun ε α :=
  syncGo seedValue tasks [] []

/-- Model of `Promise.prototype.sync(callback)` on a promise whose settled value is the
array `arr` (src/enhancement.js lines 189-195, array branch): each element is
wrapped as `(last, i) => callback(inp, i, last)` and the wrapped list is handed
to `Promise.sync` with no second argument, so `seedValue` is `undefined`. -/
def prototypeSync {ε : Type u} {α : Type v} {β : Type w} (arr : List α)
    (callback : α → Int → Option β → Except ε β) : SyncRun ε β :=
  sync (arr.map fun inp => .callable fun last i => callback inp i last) none

end Promise

/-- The `RetryConfiguration` object of `Promise.retry`
(src/enhancement.js line 218); field defaults mirror the destructuring
defaults `{times=1, delay=500, printErrors=false, errorPrefix = ''}`. -/
structure RetryOptions where
  times : Int := 1
  delay : Nat := 500
  printErrors : Bool := false
  errorPrefix : String := ""
  deriving DecidableEq

/-- The observable state threaded through `Promise.retry`'s recursion:
`options` is the caller's configuration object (mutated in place by the JS
code, modelled by threading), `collected` the `_collectedErrors` array
(errors stringify on `join`, so they are `String`s here), `calls` the trace
of remaining-attempt counts the callable was invoked with, and `slept` the
trace of timer waits (each entry is the length in ms of one `sleep`). -/
structure RetryState where
  options : RetryOptions
  collected : List String
  calls : List Int
  slept : List Nat
  deriving DecidableEq

/-- The message of the error thrown on exhaustion (src/enhancement.js
line 219). -/
def exhaustMsg (options : RetryOptions) (collected : List String) : String :=
  options.errorPrefix ++ "Exhausted retry loops:\n" ++ String.intercalate "\n" collected

/-- Model of `Promise.retry(fn, options, _collectedErrors)`
(src/enhancement.js lines 217-229) as a state transformer: if
`times <= 0` throw the exhaustion error; otherwise invoke `fn(times)`;
on success return its value; on failure push the error, `sleep(delay)`, and
recurse with `Object.assign(options, {times: times - 1})` (the same threaded
options object, its `times` field decremented). -/
def retryAux {α : Type u} (fn : Int → Except String α) (st : RetryState) :
    RetryState × Except String α :=
  if st.options.times ≤ 0 then
    (st, .error (exhaustMsg st.options st.collected))
  else
    match fn st.options.times with
    | .ok out => ({ st with calls := st.calls ++ [st.options.times] }, .ok out)
    | .error e =>
      retryAux fn
        { options := { st.options with times := st.options.times - 1 }
          collected := st.collected ++ [e]
          calls := st.calls ++ [st.options.times]
          slept := st.slept ++ [st.options.delay] }
termination_by st.options.times.toNat
decreasing_by simp; omega

namespace Promise

/-- Entry point `Promise.retry(fn, options)` with a fresh (empty)
`_collectedErrors` array, starting from the caller's options object. -/
def retry {α : Type u} (fn : Int → Except String α) (options : RetryOptions) :
    RetryState × Except String α :=
  retryAux fn { options := options, collected := [], calls := [], slept := [] }

end Promise

/-- An already-started task for `Promise.firstSuccess`: the timestamp at which
it settles together with its settled outcome.  Timestamps order the race that
the host's `Promise.all` plays out; ties settle in input order (handlers are
attached in input order and run in attachment order within one tick). -/
abbrev TPromise (ε : Type u) (α : Type v) := Nat × Except ε α

/-- The handler pair `p.then(val => reject(val), err => resolve(err))`
(src/enhancement.js lines 233-236): a settled success becomes a rejection
carrying the value, a settled failure becomes a resolution carrying the
error. -/
def invertOutcome {ε : Type u} {α : Type v} : Except ε α → Except α ε
  | .ok v => .error v
  | .error e => .ok e

/-- The rejection entries `(settleTime, index, error)` of a timed task list,
indices counted from `k`. -/
def errEntriesFrom {ε : Type u} {α : Type v} (k : Nat) :
    List (TPromise ε α) → List (Nat × Nat × ε)
  | [] => []
  | (t, .error e) :: rest => (t, k, e) :: errEntriesFrom (k + 1) rest
  | (_, .ok _) :: rest => errEntriesFrom (k + 1) rest

/-- Earliest entry by settlement time; on a time tie the earlier-listed entry
wins (entries are listed in index order). -/
def pickMin {ε : Type u} : List (Nat × Nat × ε) → Option (Nat × Nat × ε)
  | [] => none
  | e :: rest =>
    match pickMin rest with
    | none => some e
    | some b => some (if b.1 < e.1 then b else e)

/-- The host primitive `Promise.all` over timed tasks: if any member rejects,
the aggregate rejects with the error of the earliest-settling rejected member;
otherwise it resolves with every member's value in input order. -/
def promiseAll {ε : Type u} {α : Type v} (ps : List (TPromise ε α)) :
    Except ε (List α) :=
  match pickMin (errEntriesFrom 0 ps) with
  | some m => .error m.2.2
  | none => .ok (ps.filterMap fun p => p.2.toOption)

namespace Promise

/-- Model of `Promise.firstSuccess(arr)` (src/enhancement.js lines 231-240): invert
every task's outcome, `Promise.all` the inverted collection, and invert the
aggregate back via `.then(errors => reject(errors), val => resolve(val))`. -/
def firstSuccess {ε : Type u} {α : Type v} (tasks : List (TPromise ε α)) :
    Except (List ε) α :=
  match promiseAll (tasks.map fun p => (p.1, invertOutcome p.2)) with
  | .error v => .ok v
  | .ok errs => .error errs

end Promise

/-- The remaining-attempt counts `[n, n-1, ..., 1]` with which `Promise.retry`
invokes a callable that keeps failing, starting from `times = n`. -/
def attemptTimes (n : Nat) : List Int :=
  (List.range n).map fun k : Nat => (n : Int) - (k : Int)

/-- The error payload of a timed task, `none` for a success. -/
def errOf {ε : Type u} {α : Type v} (p : TPromise ε α) : Option ε :=
  match p.2 with
  | .error e => some e
  | .ok _ => none

/-- Fuel-indexed evaluator for `retryAux`, structurally recursive so that
concrete runs reduce by `rfl`; `retryAux_eq_eval` proves it agrees with
`retryAux` when the fuel is `times.toNat` (the number of remaining attempts,
which bounds the recursion depth). -/
def retryEval {α : Type u} (fn : Int → Except String α) :
    Nat → RetryState → RetryState × Except String α
  | 0, st => (st, .error (exhaustMsg st.options st.collected))
  | fuel + 1, st =>
    match fn st.options.times with
    | .ok out => ({ st with calls := st.calls ++ [st.options.times] }, .ok out)
    | .error e =>
      retryEval fn fuel
        { options := { st.options with times := st.options.times - 1 }
          collected := st.collected ++ [e]
          calls := st.calls ++ [st.options.times]
          slept := st.slept ++ [st.options.delay] }

theorem retryAux_exhaust {α : Type u} (fn : Int → Except String α) (st : RetryState)
    (h : st.options.times ≤ 0) :
    retryAux fn st = (st, .error (exhaustMsg st.options st.collected)) := by
  rw [retryAux.eq_def, if_pos h]

theorem retryAux_ok {α : Type u} (fn : Int → Except String α) (st : RetryState)
    (out : α) (h : ¬ st.options.times ≤ 0) (hfn : fn st.options.times = .ok out) :
    retryAux fn st = ({ st with calls := st.calls ++ [st.options.times] }, .ok out) := by
  rw [retryAux.eq_def, if_neg h, hfn]

theorem retryAux_err {α : Type u} (fn : Int → Except String α) (st : RetryState)
    (e : String) (h : ¬ st.options.times ≤ 0) (hfn : fn st.options.times = .error e) :
    retryAux fn st =
      retryAux fn
        { options := { st.options with times := st.options.times - 1 }
          collected := st.collected ++ [e]
          calls := st.calls ++ [st.options.times]
          slept := st.slept ++ [st.options.delay] } := by
  conv_lhs => rw [retryAux.eq_def]
  rw [if_neg h, hfn]

theorem retryAux_eq_eval {α : Type u} (fn : Int → Except String α) :
    ∀ (n : Nat) (st : RetryState), st.options.times.toNat = n →
      retryAux fn st = retryEval fn n st := by
  intro n
  induction n with
  | zero =>
    intro st hst
    rw [retryAux_exhaust fn st (by omega)]
    rfl
  | succ k ih =>
    intro st hst
    have hpos : ¬ st.options.times ≤ 0 := by omega
    cases hfn : fn st.options.times with
    | ok out =>
      rw [retryAux_ok fn st out hpos hfn]
      simp only [retryEval, hfn]
    | error e =>
      rw [retryAux_err fn st e hpos hfn]
      simp only [retryEval, hfn]
      exact ih _ (by simp; omega)

theorem jsIndex_last {α : Type u} (l : List α) :
    jsIndex l ((l.length : Int) - 1) = l.getLast? := by
  cases l with
  | nil => rfl
  | cons a t =>
    simp only [jsIndex, List.length_cons]
    rw [if_neg (by omega)]
    have ht : (((t.length + 1 : Nat) : Int) - 1).toNat = t.length := by omega
    rw [ht, List.getLast?_eq_get?]
    simp

theorem syncGo_append {ε : Type u} {α : Type v} (seedValue : Option α)
    (xs ys : List (TaskSource ε α)) :
    ∀ (ret : List α) (inv : List Int),
      syncGo seedValue (xs ++ ys) ret inv =
        match syncGo seedValue xs ret inv with
        | ⟨.ok ret1, inv1⟩ => syncGo seedValue ys ret1 inv1
        | ⟨.error e, inv1⟩ => ⟨.error e, inv1⟩ := by
  induction xs with
  | nil => intro ret inv; rfl
  | cons task rest ih =>
    intro ret inv
    simp only [List.cons_append, syncGo]
    cases hrt : runTask task seedValue ret with
    | mk r tr =>
      cases r with
      | error e => rfl
      | ok v => exact ih (ret ++ [v]) (inv ++ tr)

theorem syncGo_ok_length {ε : Type u} {α : Type v} (seedValue : Option α) :
    ∀ (tasks : List (TaskSource ε α)) (ret : List α) (inv : List Int)
      (ret1 : List α) (inv1 : List Int),
      syncGo seedValue tasks ret inv = ⟨.ok ret1, inv1⟩ →
      ret1.length = ret.length + tasks.length := by
  intro tasks
  induction tasks with
  | nil =>
    intro ret inv ret1 inv1 h
    simp only [syncGo, SyncRun.mk.injEq, Except.ok.injEq] at h
    simp [← h.1]
  | cons task rest ih =>
    intro ret inv ret1 inv1 h
    simp only [syncGo] at h
    cases hrt : runTask task seedValue ret with
    | mk r tr =>
      rw [hrt] at h
      cases r with
      | error e => simp at h
      | ok v =>
        have := ih (ret ++ [v]) (inv ++ tr) ret1 inv1 h
        simp at this
        simp [this]
        omega

theorem syncGo_invoked_bound {ε : Type u} {α : Type v} (seedValue : Option α) :
    ∀ (tasks : List (TaskSource ε α)) (ret : List α) (inv : List Int),
      ∀ j ∈ (syncGo seedValue tasks ret inv).invoked,
        j ∈ inv ∨ ((ret.length : Int) ≤ j ∧ j < (ret.length : Int) + tasks.length) := by
  intro tasks
  induction tasks with
  | nil =>
    intro ret inv j hj
    exact Or.inl hj
  | cons task rest ih =>
    intro ret inv j hj
    simp only [syncGo] at hj
    cases hrt : runTask task seedValue ret with
    | mk r tr =>
      rw [hrt] at hj
      have htr : tr = [] ∨ tr = [(ret.length : Int)] := by
        cases task with
        | callable f =>
          simp only [runTask, Prod.mk.injEq] at hrt
          exact Or.inr hrt.2.symm
        | awaited t =>
          simp only [runTask, Prod.mk.injEq] at hrt
          exact Or.inl hrt.2.symm
      cases r with
      | error e =>
        simp only [] at hj
        rcases List.mem_append.mp hj with h1 | h2
        · exact Or.inl h1
        · rcases htr with h | h <;> subst h
          · simp at h2
          · simp at h2
            subst h2
            right
            constructor
            · exact le_refl _
            · simp only [List.length_cons]
              omega
      | ok v =>
        have := ih (ret ++ [v]) (inv ++ tr) j hj
        rcases this with h1 | h2
        · rcases List.mem_append.mp h1 with ha | hb
          · exact Or.inl ha
          · rcases htr with h | h <;> subst h
            · simp at hb
            · simp at hb
              subst hb
              right
              simp only [List.length_cons]
              omega
        · right
          simp only [List.length_append, List.length_cons, List.length_nil] at h2 ⊢
          push_cast at h2 ⊢
          omega

/-- C9: `Promise.sync` applied to an empty task collection, with or without a
seed value, resolves to an empty array and invokes no callable. -/
theorem sync_empty_tasks {ε : Type u} {α : Type v} (seedValue : Option α) :
    Promise.sync ([] : List (TaskSource ε α)) seedValue = ⟨.ok [], []⟩ := rfl

/-- C1 (evidence of the divergence): running `Promise.sync` on the single
callable `(prev, i) => prev === undefined ? -99 : prev` with seed value `5`
resolves to `[-99]`: the index-0 callable receives `undefined` (`none`), not
the seed value, because the source guards the seed branch with `idx < 0`
(src/enhancement.js line 208) and `idx = ret.length` is never negative.  The
claim mandates resolution to `[5]`. -/
theorem sync_seed_never_passed :
    Promise.sync
        [TaskSource.callable fun prev _ => (.ok (prev.getD (-99)) : Except String Int)]
        (some 5) =
      ⟨.ok [-99], [0]⟩ := rfl

/-- C5: if every task before position `k` succeeds (producing `retP` with the
invocation trace `invP`) and the task at position `k` settles with an error,
then the whole `Promise.sync` call rejects with that same error, the partial
results are discarded, and no task after position `k` is ever invoked: the
invocation trace ends at `k = retP.length` and every invoked index is at most
`(pre.length : Int)`. -/
theorem sync_short_circuit {ε : Type u} {α : Type v} (seedValue : Option α)
    (pre suf : List (TaskSource ε α)) (task : TaskSource ε α)
    (retP : List α) (invP : List Int) (e : ε)
    (hpre : Promise.sync pre seedValue = ⟨.ok retP, invP⟩)
    (hfail : (runTask task seedValue retP).1 = .error e) :
    Promise.sync (pre ++ task :: suf) seedValue =
      ⟨.error e, invP ++ (runTask task seedValue retP).2⟩ ∧
    ∀ j ∈ (Promise.sync (pre ++ task :: suf) seedValue).invoked,
      j ≤ (pre.length : Int) := by
  have hlen : retP.length = pre.length := by
    have := syncGo_ok_length seedValue pre [] [] retP invP hpre
    simpa using this
  have hrun : Promise.sync (pre ++ task :: suf) seedValue =
      ⟨.error e, invP ++ (runTask task seedValue retP).2⟩ := by
    show syncGo seedValue (pre ++ task :: suf) [] [] = _
    rw [syncGo_append seedValue pre (task :: suf) [] []]
    rw [show syncGo seedValue pre [] [] = ⟨.ok retP, invP⟩ from hpre]
    simp only [syncGo]
    cases hrt : runTask task seedValue retP with
    | mk r tr =>
      rw [hrt] at hfail
      simp only [] at hfail
      subst hfail
      rfl
  refine ⟨hrun, ?_⟩
  intro j hj
  rw [hrun] at hj
  simp only [] at hj
  rcases List.mem_append.mp hj with h1 | h2
  · have := syncGo_invoked_bound seedValue pre [] [] j
      (by rw [show syncGo seedValue pre [] [] = ⟨.ok retP, invP⟩ from hpre]; exact h1)
    rcases this with h | h
    · simp at h
    · simp only [List.length_nil, Nat.cast_zero, zero_add] at h
      omega
  · have htr : (runTask task seedValue retP).2 = [] ∨
        (runTask task seedValue retP).2 = [(retP.length : Int)] := by
      cases task with
      | callable f => exact Or.inr rfl
      | awaited t => exact Or.inl rfl
    rcases htr with h | h <;> rw [h] at h2
    · simp at h2
    · simp at h2
      subst h2
      rw [hlen]

theorem sync_short_circuit_witness :
    Promise.sync
        ([TaskSource.callable fun _ _ => (.ok 1 : Except String Nat)] ++
          (TaskSource.callable fun _ _ => (.error "boom" : Except String Nat)) ::
            [TaskSource.callable fun _ _ => (.ok 3 : Except String Nat)]) none =
      ⟨.error "boom",
        [0] ++ (runTask (TaskSource.callable fun _ _ =>
          (.error "boom" : Except String Nat)) none [1]).2⟩ ∧
    ∀ j ∈ (Promise.sync
        ([TaskSource.callable fun _ _ => (.ok 1 : Except String Nat)] ++
          (TaskSource.callable fun _ _ => (.error "boom" : Except String Nat)) ::
            [TaskSource.callable fun _ _ => (.ok 3 : Except String Nat)]) none).invoked,
      j ≤ (([TaskSource.callable fun _ _ => (.ok 1 : Except String Nat)] :
          List (TaskSource String Nat)).length : Int) :=
  sync_short_circuit none _ _ _ [1] [0] "boom" rfl rfl

theorem runTask_callable {ε : Type u} {α : Type v} (f : Option α → Int → Except ε α)
    (seedValue : Option α) (ret : List α) :
    runTask (.callable f) seedValue ret =
      (f (jsIndex ret ((ret.length : Int) - 1)) ret.length, [(ret.length : Int)]) := by
  simp only [runTask]
  rw [if_neg (by omega)]

theorem syncGo_wrap {ε : Type u} {α : Type v} {β : Type w}
    (cb : α → Int → Option β → Except ε β) :
    ∀ (arr : List α) (rs : List β) (ret : List β) (inv : List Int),
      rs.length = arr.length →
      (∀ k (hk : k < arr.length) (hk2 : k < rs.length),
        cb (arr.get ⟨k, hk⟩) ((ret.length : Int) + (k : Int)) ((ret ++ rs.take k).getLast?) =
          .ok (rs.get ⟨k, hk2⟩)) →
      syncGo none (arr.map fun inp => .callable fun last i => cb inp i last) ret inv =
        ⟨.ok (ret ++ rs),
          inv ++ (List.range arr.length).map fun k : Nat => (ret.length : Int) + (k : Int)⟩ := by
  intro arr
  induction arr with
  | nil =>
    intro rs ret inv hlen hstep
    have hrs : rs = [] := List.eq_nil_of_length_eq_zero (by simpa using hlen)
    subst hrs
    simp [syncGo]
  | cons a arr ih =>
    intro rs ret inv hlen hstep
    cases rs with
    | nil => simp at hlen
    | cons r rs =>
      have h0 : cb a ((ret.length : Int)) ret.getLast? = .ok r := by
        have := hstep 0 (by simp) (by simp)
        simpa using this
      have hshift : ∀ k (hk : k < arr.length) (hk2 : k < rs.length),
          cb (arr.get ⟨k, hk⟩) (((ret ++ [r]).length : Int) + (k : Int))
              (((ret ++ [r]) ++ rs.take k).getLast?) = .ok (rs.get ⟨k, hk2⟩) := by
        intro k hk hk2
        have hs := hstep (k + 1) (by simpa using hk) (by simpa using hk2)
        simp only [List.get_cons_succ, List.take_succ_cons] at hs
        have harr : (ret ++ [r]) ++ rs.take k = ret ++ r :: rs.take k := by simp
        have hlen2 : (((ret ++ [r]).length : Int)) + (k : Int) =
            ((ret.length : Int)) + (((k + 1 : Nat)) : Int) := by
          simp only [List.length_append, List.length_cons, List.length_nil]
          push_cast
          ring
        rw [harr, hlen2]
        exact hs
      simp only [List.map_cons, syncGo, runTask_callable, jsIndex_last, h0]
      rw [ih rs (ret ++ [r]) (inv ++ [(ret.length : Int)]) (by simpa using hlen) hshift]
      simp only [SyncRun.mk.injEq, Except.ok.injEq]
      constructor
      · simp
      · simp only [List.length_cons]
        rw [List.range_succ_eq_map]
        simp only [List.map_cons, List.map_map, Nat.cast_zero, add_zero,
          List.append_assoc, List.singleton_append]
        congr 1
        congr 1
        refine List.map_congr_left ?_
        intro k _
        simp only [Function.comp, List.length_append, List.length_cons, List.length_nil]
        push_cast
        ring

/-- C8: when the chained `.sync(callback)` runs on a promise settled with an
array, the callback is invoked once per element in strict index order (the
invocation trace is `[0, 1, ..., n-1]`), each call receives
`(element_k, k, previousCallbackResult)` — the third argument being
`undefined` (`none`) at index 0 and the settled result for index `k-1`
otherwise, which is what `(rs.take k).getLast?` denotes — and the returned
Task resolves to the index-aligned list `rs` of all callback results. -/
theorem prototype_sync_contract {ε : Type u} {α : Type v} {β : Type w}
    (arr : List α) (cb : α → Int → Option β → Except ε β) (rs : List β)
    (hlen : rs.length = arr.length)
    (hstep : ∀ k (hk : k < arr.length) (hk2 : k < rs.length),
      cb (arr.get ⟨k, hk⟩) (k : Int) ((rs.take k).getLast?) = .ok (rs.get ⟨k, hk2⟩)) :
    Promise.prototypeSync arr cb =
      ⟨.ok rs, (List.range arr.length).map fun k : Nat => (k : Int)⟩ := by
  have hwrap : ∀ k (hk : k < arr.length) (hk2 : k < rs.length),
      cb (arr.get ⟨k, hk⟩) ((([] : List β).length : Int) + (k : Int))
        (([] ++ rs.take k).getLast?) = .ok (rs.get ⟨k, hk2⟩) := by
    intro k hk hk2
    simpa using hstep k hk hk2
  have := syncGo_wrap cb arr rs [] [] hlen hwrap
  show syncGo none (arr.map fun inp => .callable fun last i => cb inp i last) [] [] = _
  rw [this]
  simp

theorem prototype_sync_contract_witness :
    Promise.prototypeSync [10, 20]
        (fun elem _ last => (.ok (elem + last.getD 0) : Except String Nat)) =
      ⟨.ok [10, 30], (List.range 2).map fun k : Nat => (k : Int)⟩ :=
  prototype_sync_contract [10, 20] _ [10, 30] rfl
    (by
      intro k hk hk2
      match k with
      | 0 => rfl
      | 1 => rfl
      | k + 2 =>
        simp only [List.length_cons, List.length_nil] at hk
        omega)

theorem attemptTimes_succ (n : Nat) :
    attemptTimes (n + 1) = ((n + 1 : Nat) : Int) :: attemptTimes n := by
  simp only [attemptTimes, List.range_succ_eq_map, List.map_cons, List.map_map,
    Nat.cast_zero, sub_zero]
  congr 1
  refine List.map_congr_left ?_
  intro k _
  simp only [Function.comp]
  push_cast
  ring

theorem retryAux_allfail {α : Type u} (fn : Int → Except String α) (errs : Int → String)
    (hfn : ∀ t, fn t = .error (errs t)) :
    ∀ (n : Nat) (st : RetryState), st.options.times = (n : Int) →
      retryAux fn st =
        ({ options := { st.options with times := 0 },
           collected := st.collected ++ (attemptTimes n).map errs,
           calls := st.calls ++ attemptTimes n,
           slept := st.slept ++ List.replicate n st.options.delay },
         .error (exhaustMsg st.options (st.collected ++ (attemptTimes n).map errs))) := by
  intro n
  induction n with
  | zero =>
    intro st hst
    rw [retryAux_exhaust fn st (by omega)]
    obtain ⟨⟨t, d, p, x⟩, c, cl, sl⟩ := st
    simp only [Nat.cast_zero] at hst
    subst hst
    simp [attemptTimes, exhaustMsg]
  | succ m ih =>
    intro st hst
    have hpos : ¬ st.options.times ≤ 0 := by omega
    rw [retryAux_err fn st (errs st.options.times) hpos (hfn st.options.times)]
    rw [ih { options := { st.options with times := st.options.times - 1 },
             collected := st.collected ++ [errs st.options.times],
             calls := st.calls ++ [st.options.times],
             slept := st.slept ++ [st.options.delay] }
          (by show st.options.times - 1 = (m : Int); omega)]
    rw [hst, attemptTimes_succ]
    simp [exhaustMsg, List.replicate_succ]

/-- C3: for a callable failing on every attempt (`fn t = error (errs t)`) and
a configuration with `times = n`, `Promise.retry` invokes the callable exactly
`n` times, with remaining-attempt counts `n, n-1, ..., 1` (`attemptTimes n`),
and rejects with the exhausted-retries error whose message is the configured
`errorPrefix` followed by the newline-joined string forms of the `n` collected
errors in the order the failures occurred. -/
theorem retry_exhaustion {α : Type u} (fn : Int → Except String α)
    (errs : Int → String) (opts : RetryOptions) (n : Nat)
    (hfn : ∀ t, fn t = .error (errs t)) (hn : opts.times = (n : Int)) :
    Promise.retry fn opts =
      ({ options := { opts with times := 0 },
         collected := (attemptTimes n).map errs,
         calls := attemptTimes n,
         slept := List.replicate n opts.delay },
       .error (exhaustMsg opts ((attemptTimes n).map errs))) ∧
    (attemptTimes n).length = n := by
  constructor
  · have := retryAux_allfail fn errs hfn n
      { options := opts, collected := [], calls := [], slept := [] } hn
    simpa using this
  · simp [attemptTimes]

theorem retry_exhaustion_witness :
    Promise.retry (fun t => (.error ("e" ++ toString t) : Except String Nat))
        { times := 2, delay := 500, printErrors := false, errorPrefix := "P: " } =
      ({ options := { times := 0, delay := 500, printErrors := false, errorPrefix := "P: " },
         collected := (attemptTimes 2).map fun t => "e" ++ toString t,
         calls := attemptTimes 2,
         slept := List.replicate 2 500 },
       .error (exhaustMsg { times := 2, delay := 500, printErrors := false, errorPrefix := "P: " }
         ((attemptTimes 2).map fun t => "e" ++ toString t))) ∧
    (attemptTimes 2).length = 2 :=
  retry_exhaustion _ _ _ 2 (fun _ => rfl) rfl

/-- C4: with `times = 0` the callable is never invoked (`calls = []`), no
delay elapses (`slept = []`), and `Promise.retry` rejects immediately with the
exhausted-retries error over an empty collected-errors list. -/
theorem retry_zero_times {α : Type u} (fn : Int → Except String α)
    (opts : RetryOptions) (h : opts.times = 0) :
    Promise.retry fn opts =
      ({ options := opts, collected := [], calls := [], slept := [] },
       .error (exhaustMsg opts [])) := by
  show retryAux fn _ = _
  rw [retryAux_exhaust fn _ (by show opts.times ≤ 0; omega)]

theorem retry_zero_times_witness :
    Promise.retry (fun _ => (.ok 7 : Except String Nat))
        { times := 0, delay := 500, printErrors := false, errorPrefix := "" } =
      ({ options := { times := 0, delay := 500, printErrors := false, errorPrefix := "" },
         collected := [], calls := [], slept := [] },
       .error (exhaustMsg { times := 0, delay := 500, printErrors := false, errorPrefix := "" } [])) :=
  retry_zero_times _ _ rfl

/-- C10: if the callable succeeds on the first attempt (and `times` is
positive, so an attempt happens at all), `Promise.retry` returns that value,
the caller's options object is left completely unmodified, no error is
collected, and no delay elapses. -/
theorem retry_success_first_attempt {α : Type u} (fn : Int → Except String α)
    (opts : RetryOptions) (v : α) (hpos : 0 < opts.times)
    (hfn : fn opts.times = .ok v) :
    Promise.retry fn opts =
      ({ options := opts, collected := [], calls := [opts.times], slept := [] }, .ok v) := by
  show retryAux fn _ = _
  rw [retryAux_ok fn _ v (by show ¬ opts.times ≤ 0; omega) hfn]
  rfl

theorem retry_success_first_attempt_witness :
    Promise.retry (fun _ => (.ok 7 : Except String Nat))
        { times := 1, delay := 500, printErrors := false, errorPrefix := "" } =
      ({ options := { times := 1, delay := 500, printErrors := false, errorPrefix := "" },
         collected := [], calls := [1], slept := [] }, .ok 7) :=
  retry_success_first_attempt _ _ 7 (by decide) rfl

theorem retryAux_mutation {α : Type u} (fn : Int → Except String α) :
    ∀ (n : Nat) (st : RetryState), st.options.times.toNat = n →
      ∃ newErrs : List String,
        (retryAux fn st).1.collected = st.collected ++ newErrs ∧
        (retryAux fn st).1.options =
          { st.options with times := st.options.times - (newErrs.length : Int) } ∧
        (retryAux fn st).1.slept =
          st.slept ++ List.replicate newErrs.length st.options.delay := by
  intro n
  induction n with
  | zero =>
    intro st hst
    refine ⟨[], ?_, ?_, ?_⟩ <;> rw [retryAux_exhaust fn st (by omega)] <;> simp
  | succ m ih =>
    intro st hst
    have hpos : ¬ st.options.times ≤ 0 := by omega
    cases hfn : fn st.options.times with
    | ok out =>
      refine ⟨[], ?_, ?_, ?_⟩ <;> rw [retryAux_ok fn st out hpos hfn] <;> simp
    | error e =>
      rw [retryAux_err fn st e hpos hfn]
      obtain ⟨newErrs, h1, h2, h3⟩ := ih
        { options := { st.options with times := st.options.times - 1 },
          collected := st.collected ++ [e],
          calls := st.calls ++ [st.options.times],
          slept := st.slept ++ [st.options.delay] }
        (by show (st.options.times - 1).toNat = m; omega)
      refine ⟨e :: newErrs, ?_, ?_, ?_⟩
      · rw [h1]; simp
      · rw [h2]
        simp only [RetryOptions.mk.injEq, List.length_cons]
        refine ⟨?_, trivial, trivial, trivial⟩
        push_cast
        ring
      · rw [h3]
        simp [List.replicate_succ]

/-- C7: across one whole `Promise.retry` invocation the caller-supplied
options object — threaded through the recursion in place of JS's in-place
`Object.assign` mutation — ends with its `times` field decremented by exactly
one per failed attempt (one collected error per failed attempt), and with
every other field (`delay`, `printErrors`, `errorPrefix`) untouched. -/
theorem retry_options_mutation {α : Type u} (fn : Int → Except String α)
    (opts : RetryOptions) :
    (Promise.retry fn opts).1.options =
      { opts with
        times := opts.times - (((Promise.retry fn opts).1.collected.length : Nat) : Int) } := by
  obtain ⟨newErrs, h1, h2, h3⟩ := retryAux_mutation fn _
    { options := opts, collected := [], calls := [], slept := [] } rfl
  simp only [Promise.retry]
  rw [h2, h1]
  simp

/-- C6 (amended): a delay of the configured length elapses exactly once per
failed attempt — so never before the first attempt and never after a
successful attempt, but also after the final failed attempt that precedes
exhaustion — and in the success scenario (fails at remaining counts 8,7,6,5,
succeeds at 4 under `{times: 8}`) the call yields the success value with
exactly 4 delays of the configured length and 4 internally collected errors
that the success outcome does not expose. -/
theorem retry_delay_per_failure :
    (∀ (α : Type) (fn : Int → Except String α) (opts : RetryOptions),
      (Promise.retry fn opts).1.slept =
        List.replicate (Promise.retry fn opts).1.collected.length opts.delay) ∧
    (Promise.retry
        (fun t => if 5 ≤ t then (.error ("fail@" ++ toString t) : Except String Nat) else .ok 42)
        { times := 8, delay := 500, printErrors := false, errorPrefix := "" } =
      ({ options := { times := 4, delay := 500, printErrors := false, errorPrefix := "" },
         collected := ["fail@8", "fail@7", "fail@6", "fail@5"],
         calls := [8, 7, 6, 5, 4],
         slept := [500, 500, 500, 500] }, .ok 42)) := by
  constructor
  · intro α fn opts
    obtain ⟨newErrs, h1, h2, h3⟩ := retryAux_mutation fn _
      { options := opts, collected := [], calls := [], slept := [] } rfl
    simp only [Promise.retry]
    rw [h3, h1]
    simp
  · have h := retryAux_eq_eval
      (fun t => if 5 ≤ t then (.error ("fail@" ++ toString t) : Except String Nat) else .ok 42) 8
      { options := { times := 8, delay := 500, printErrors := false, errorPrefix := "" },
        collected := [], calls := [], slept := [] } rfl
    simp only [Promise.retry]
    rw [h]
    rfl

/-- C6 (counterexample to the claim as stated): with `{times: 1}` and an
always-failing callable there is exactly one attempt and no next attempt,
yet one delay of the configured length elapses (between the failed attempt
and the exhaustion rejection), so delays do not occur only between a failed
attempt and a following attempt. -/
theorem retry_trailing_delay_counterexample :
    (Promise.retry (fun _ => (.error "boom" : Except String Nat))
        { times := 1, delay := 500, printErrors := false, errorPrefix := "" }).1.calls.length = 1 ∧
    (Promise.retry (fun _ => (.error "boom" : Except String Nat))
        { times := 1, delay := 500, printErrors := false, errorPrefix := "" }).1.slept = [500] ∧
    ¬ ((Promise.retry (fun _ => (.error "boom" : Except String Nat))
        { times := 1, delay := 500, printErrors := false, errorPrefix := "" }).1.slept.length ≤
      (Promise.retry (fun _ => (.error "boom" : Except String Nat))
        { times := 1, delay := 500, printErrors := false, errorPrefix := "" }).1.calls.length - 1) := by
  have h := retryAux_eq_eval (fun _ => (.error "boom" : Except String Nat)) 1
    { options := { times := 1, delay := 500, printErrors := false, errorPrefix := "" },
      collected := [], calls := [], slept := [] } rfl
  simp only [Promise.retry]
  rw [h]
  decide

theorem pickMin_mem {ε : Type u} :
    ∀ (l : List (Nat × Nat × ε)) (m : Nat × Nat × ε), pickMin l = some m → m ∈ l := by
  intro l
  induction l with
  | nil => intro m h; simp [pickMin] at h
  | cons e rest ih =>
    intro m h
    simp only [pickMin] at h
    cases hp : pickMin rest with
    | none =>
      rw [hp] at h
      simp only [Option.some.injEq] at h
      subst h
      exact List.mem_cons_self _ _
    | some b =>
      rw [hp] at h
      simp only [Option.some.injEq] at h
      by_cases hb : b.1 < e.1
      · rw [if_pos hb] at h
        subst h
        exact List.mem_cons_of_mem _ (ih b hp)
      · rw [if_neg hb] at h
        subst h
        exact List.mem_cons_self _ _

theorem errEntriesFrom_mem {ε : Type u} {α : Type v} :
    ∀ (ps : List (TPromise ε α)) (k : Nat) (m : Nat × Nat × ε),
      m ∈ errEntriesFrom k ps →
      ∃ j, m.2.1 = k + j ∧ ps.get? j = some (m.1, .error m.2.2) := by
  intro ps
  induction ps with
  | nil => intro k m h; simp [errEntriesFrom] at h
  | cons p rest ih =>
    intro k m h
    obtain ⟨t, o⟩ := p
    cases o with
    | error e =>
      simp only [errEntriesFrom] at h
      rcases List.mem_cons.mp h with h0 | h1
      · subst h0
        exact ⟨0, by simp, by simp⟩
      · obtain ⟨j, hj1, hj2⟩ := ih (k + 1) m h1
        exact ⟨j + 1, by omega, by simpa using hj2⟩
    | ok v =>
      simp only [errEntriesFrom] at h
      obtain ⟨j, hj1, hj2⟩ := ih (k + 1) m h
      exact ⟨j + 1, by omega, by simpa using hj2⟩

theorem errEntriesFrom_eq_nil {ε : Type u} {α : Type v} :
    ∀ (ps : List (TPromise ε α)) (k : Nat),
      (∀ p ∈ ps, ∃ v, p.2 = .ok v) → errEntriesFrom k ps = [] := by
  intro ps
  induction ps with
  | nil => intro k _; rfl
  | cons p rest ih =>
    intro k h
    obtain ⟨t, o⟩ := p
    obtain ⟨v, hv⟩ := h (t, o) (List.mem_cons_self _ _)
    cases o with
    | ok v2 =>
      simp only [errEntriesFrom]
      exact ih (k + 1) fun q hq => h q (List.mem_cons_of_mem _ hq)
    | error e => simp at hv

theorem invertOutcome_toOption {ε : Type u} {α : Type v} (p : TPromise ε α) :
    (invertOutcome p.2).toOption = errOf p := by
  obtain ⟨t, o⟩ := p
  cases o <;> rfl

theorem pickMin_errEntries {ε : Type u} {α : Type v} :
    ∀ (ps : List (TPromise ε α)) (k i t : Nat) (e : ε),
      ps.get? i = some (t, .error e) →
      (∀ j t2 e2, ps.get? j = some (t2, .error e2) → t < t2 ∨ (t = t2 ∧ i ≤ j)) →
      pickMin (errEntriesFrom k ps) = some (t, k + i, e) := by
  intro ps
  induction ps with
  | nil => intro k i t e hget hmin; simp at hget
  | cons p rest ih =>
    intro k i t e hget hmin
    obtain ⟨t0, o0⟩ := p
    cases o0 with
    | ok v =>
      cases i with
      | zero => simp at hget
      | succ i =>
        simp only [List.get?_cons_succ] at hget
        have hmin2 : ∀ j t2 e2, rest.get? j = some (t2, .error e2) →
            t < t2 ∨ (t = t2 ∧ i ≤ j) := by
          intro j t2 e2 hj
          rcases hmin (j + 1) t2 e2 (by simpa using hj) with h | h
          · exact Or.inl h
          · exact Or.inr ⟨h.1, by omega⟩
        have hrec := ih (k + 1) i t e hget hmin2
        simp only [errEntriesFrom]
        rw [hrec]
        have hk : (k + 1) + i = k + (i + 1) := by omega
        rw [hk]
    | error e0 =>
      cases i with
      | zero =>
        simp only [List.get?_cons_zero, Option.some.injEq, Prod.mk.injEq,
          Except.error.injEq] at hget
        obtain ⟨rfl, rfl⟩ := hget
        simp only [errEntriesFrom, pickMin]
        cases hp : pickMin (errEntriesFrom (k + 1) rest) with
        | none => simp
        | some b =>
          have hbmem := pickMin_mem _ b hp
          obtain ⟨j, hj1, hj2⟩ := errEntriesFrom_mem rest (k + 1) b hbmem
          have hnb : ¬ b.1 < t0 := by
            rcases hmin (j + 1) b.1 b.2.2 (by simpa using hj2) with h | h
            · omega
            · omega
          simp [hnb]
      | succ i =>
        simp only [List.get?_cons_succ] at hget
        have ht0 : t < t0 := by
          rcases hmin 0 t0 e0 (by simp) with h | h
          · exact h
          · omega
        have hmin2 : ∀ j t2 e2, rest.get? j = some (t2, .error e2) →
            t < t2 ∨ (t = t2 ∧ i ≤ j) := by
          intro j t2 e2 hj
          rcases hmin (j + 1) t2 e2 (by simpa using hj) with h | h
          · exact Or.inl h
          · exact Or.inr ⟨h.1, by omega⟩
        have hrec := ih (k + 1) i t e hget hmin2
        simp only [errEntriesFrom, pickMin]
        rw [hrec]
        simp only [ht0, if_true, Option.some.injEq, Prod.mk.injEq]
        refine ⟨trivial, by omega, trivial⟩

/-- C2: for every collection of already-started timed tasks, (a) if the task
at index `i` succeeds with value `v` and settles no later than every other
succeeding task (strictly earlier, or at the same instant with a smaller or
equal index — the tie rule of the host's completion bookkeeping),
`Promise.firstSuccess` resolves to `v`, the value of the first task by
settlement time that succeeds; and (b) if every task fails,
`Promise.firstSuccess` rejects with the ordered collection of all their
errors (input order, which is how the host's wait-for-all reports them). -/
theorem firstSuccess_contract {ε : Type u} {α : Type v}
    (tasks : List (TPromise ε α)) :
    (∀ i t v, tasks.get? i = some (t, .ok v) →
      (∀ j t2 v2, tasks.get? j = some (t2, .ok v2) → t < t2 ∨ (t = t2 ∧ i ≤ j)) →
      Promise.firstSuccess tasks = .ok v) ∧
    ((∀ p ∈ tasks, ∃ e, p.2 = .error e) →
      Promise.firstSuccess tasks = .error (tasks.filterMap errOf)) := by
  constructor
  · intro i t v hget hmin
    have hget2 : (tasks.map fun p => (p.1, invertOutcome p.2)).get? i =
        some (t, .error v) := by
      rw [List.get?_map, hget]
      rfl
    have hmin2 : ∀ j t2 e2,
        (tasks.map fun p => (p.1, invertOutcome p.2)).get? j = some (t2, .error e2) →
        t < t2 ∨ (t = t2 ∧ i ≤ j) := by
      intro j t2 e2 hj
      rw [List.get?_map] at hj
      cases hq : tasks.get? j with
      | none => rw [hq] at hj; simp at hj
      | some q =>
        rw [hq] at hj
        obtain ⟨tq, oq⟩ := q
        cases oq with
        | ok v2 =>
          simp only [Option.map_some', Option.some.injEq, Prod.mk.injEq, invertOutcome,
            Except.error.injEq] at hj
          obtain ⟨rfl, rfl⟩ := hj
          exact hmin j tq v2 hq
        | error eq2 =>
          simp only [Option.map_some', Option.some.injEq, Prod.mk.injEq, invertOutcome] at hj
          exact absurd hj.2 (by simp)
    have hpick := pickMin_errEntries (tasks.map fun p => (p.1, invertOutcome p.2))
      0 i t v hget2 hmin2
    simp only [Promise.firstSuccess, promiseAll]
    rw [hpick]
  · intro hall
    have hnil : errEntriesFrom 0 (tasks.map fun p => (p.1, invertOutcome p.2)) = [] := by
      apply errEntriesFrom_eq_nil
      intro p hp
      obtain ⟨q, hq, hq2⟩ := List.mem_map.mp hp
      obtain ⟨e, he⟩ := hall q hq
      refine ⟨e, ?_⟩
      rw [← hq2]
      simp [he, invertOutcome]
    have hfm : (tasks.map fun p => (p.1, invertOutcome p.2)).filterMap
        (fun p => p.2.toOption) = tasks.filterMap errOf := by
      rw [List.filterMap_map]
      have hco : ((fun (p : TPromise α ε) => p.2.toOption) ∘
          (fun (p : TPromise ε α) => (p.1, invertOutcome p.2))) = errOf := by
        funext p
        exact invertOutcome_toOption p
      rw [hco]
    simp only [Promise.firstSuccess, promiseAll]
    rw [hnil]
    simp only [pickMin]
    rw [hfm]

theorem firstSuccess_contract_witness :
    Promise.firstSuccess ([(3, .error "always-fails"), (1, .ok 20)] :
        List (TPromise String Nat)) = .ok 20 ∧
    Promise.firstSuccess ([(0, .error 10), (5, .error 20)] :
        List (TPromise Nat Nat)) = .error [10, 20] := by
  constructor
  · refine (firstSuccess_contract _).1 1 1 20 rfl ?_
    intro j t2 v2 h
    match j with
    | 0 => simp at h
    | 1 =>
      simp only [List.get?_cons_succ, List.get?_cons_zero, Option.some.injEq,
        Prod.mk.injEq, Except.ok.injEq] at h
      exact Or.inr ⟨h.1, le_refl 1⟩
    | j + 2 => simp at h
  · exact (firstSuccess_contract _).2
      (by
        intro p hp
        rcases List.mem_cons.mp hp with h | h
        · exact ⟨10, by rw [h]⟩
        · rcases List.mem_cons.mp h with h2 | h2
          · exact ⟨20, by rw [h2]⟩
          · simp at h2)
